import Mathlib

/-!
Verification of the mongo-slow-queries repository.

The development shallowly embeds the repository's JavaScript sources:
  * `src/fingerprint.js` — the structural query fingerprinter
    (`fingerprint`, `arrayFingerprint`);
  * `src/index.js` — the `MongoSlowQueryChecker` class
    (`constructor`, `get`, `processOps`, `isIndexed`).

JSON-like JavaScript values are modelled by the mutually inductive type
`JsValue` below.  Numbers are modelled as `Int` (the float `NaN`, which is
also falsy in JavaScript, is outside the model).  JavaScript property
access on a missing field yields `undefined`, modelled by `JsValue.vUndefined`.
-/

set_option maxHeartbeats 1000000

mutual

/-- A JSON-like JavaScript value, as handled by `fingerprint.js`. -/
inductive JsValue where
  | vNull
  | vUndefined
  | vBool (b : Bool)
  | vNum (n : Int)
  | vStr (s : String)
  | vArr (elems : JsList)
  | vObj (fields : JsFields)

/-- A JavaScript array of `JsValue`s. -/
inductive JsList where
  | nil
  | cons (hd : JsValue) (tl : JsList)

/-- The ordered own-enumerable fields of a JavaScript object
(`_.keys` enumeration order). -/
inductive JsFields where
  | nil
  | cons (key : String) (val : JsValue) (tl : JsFields)

end

/-- Convenience constructor for `JsList` from a Lean list. -/
def jarr : List JsValue → JsList
  | [] => JsList.nil
  | v :: rest => JsList.cons v (jarr rest)

/-- Convenience constructor for `JsFields` from a Lean association list. -/
def jobj : List (String × JsValue) → JsFields
  | [] => JsFields.nil
  | (k, v) :: rest => JsFields.cons k v (jobj rest)

/-- JavaScript falsiness: `null`, `undefined`, `false`, `0` and the empty
string are falsy; objects and arrays (even empty ones) are truthy.
(The falsy float `NaN` is outside the model.)  This is the test used by
underscore's `_.compact`. -/
def jsFalsy : JsValue → Bool
  | JsValue.vNull => true
  | JsValue.vUndefined => true
  | JsValue.vBool b => !b
  | JsValue.vNum n => n == 0
  | JsValue.vStr s => s == ""
  | JsValue.vArr _ => false
  | JsValue.vObj _ => false

/-- JavaScript truthiness. -/
def truthy (v : JsValue) : Bool := !(jsFalsy v)

/-- Whether a value is a plain scalar (string / number / boolean):
neither `null` nor `undefined` nor an object nor an array. -/
def isScalar : JsValue → Bool
  | JsValue.vBool _ => true
  | JsValue.vNum _ => true
  | JsValue.vStr _ => true
  | _ => false

/-- `_.size(ra) !== _.size(_.compact(ra))` from `arrayFingerprint`:
`_.compact` drops every falsy element, so the sizes differ exactly when
some element of the array is falsy. -/
def anyFalsyL : JsList → Bool
  | JsList.nil => false
  | JsList.cons v tl => jsFalsy v || anyFalsyL tl

/-- Length of a `JsList`. -/
def JsList.len : JsList → Nat
  | JsList.nil => 0
  | JsList.cons _ tl => JsList.len tl + 1

/-- View of a `JsList` as a Lean list. -/
def JsList.toList : JsList → List JsValue
  | JsList.nil => []
  | JsList.cons v tl => v :: JsList.toList tl

mutual

/-- The object branch of `fingerprint` from `src/fingerprint.js`: iterate
over the keys in enumeration order; an array value is rendered through
`arrayFingerprint` (inlined below), a (non-array) object value through a
recursive `fingerprint` call (inlined: `fingerprint` always produces
`"\x7b " ++ fpFields fields ++ " \x7d"` on an object), `null`/`undefined`
values render as suffixes on the key, and any other scalar renders as the
bare key.  After each entry, `if (_.size(keys) > i + 1) fprint += ', '`
appends the separator exactly when further keys remain. -/
def fpFields : JsFields → String
  | JsFields.nil => ""
  | JsFields.cons k v tl =>
      (match v with
       | JsValue.vArr xs =>
           k ++ ": " ++ (if anyFalsyL xs then "[ null ]" else "[ " ++ fpElems xs ++ " ]")
       | JsValue.vObj gs => k ++ ": " ++ ("\x7b " ++ fpFields gs ++ " \x7d")
       | JsValue.vNull => k ++ ": null"
       | JsValue.vUndefined => k ++ ": undefined"
       | _ => k)
      ++ (match tl with | JsFields.nil => "" | JsFields.cons _ _ _ => ", ")
      ++ fpFields tl

/-- The element loop of `arrayFingerprint` (after the `_.compact` test):
an element that is an object in the underscore sense (`_.isObject`, which
includes arrays) contributes `fingerprint(val)` (inlined: on an object
this is `"\x7b " ++ fpFields … ++ " \x7d"`, and on an array — since
`fingerprint` enumerates an array's index keys — it is
`"\x7b " ++ fpIndexed 0 … ++ " \x7d"`); any other element contributes the
empty string.  The `', '` separator is appended whenever further elements
remain, whether or not the element produced a visible token. -/
def fpElems : JsList → String
  | JsList.nil => ""
  | JsList.cons v tl =>
      (match v with
       | JsValue.vObj gs => "\x7b " ++ fpFields gs ++ " \x7d"
       | JsValue.vArr xs => "\x7b " ++ fpIndexed 0 xs ++ " \x7d"
       | _ => "")
      ++ (match tl with | JsList.nil => "" | JsList.cons _ _ => ", ")
      ++ fpElems tl

/-- `fingerprint` applied to a JavaScript array: `_.keys` on an array
yields its index strings `"0", "1", …`, and `obj[key]` yields the
elements, so the array is rendered like an object whose keys are the
decimal indices.  Array-valued elements go through `arrayFingerprint`
(inlined), object elements through recursive `fingerprint` (inlined),
`null`/`undefined` render as key suffixes, other scalars as the bare
index key. -/
def fpIndexed : Nat → JsList → String
  | _, JsList.nil => ""
  | i, JsList.cons v tl =>
      (match v with
       | JsValue.vArr xs =>
           toString i ++ ": " ++ (if anyFalsyL xs then "[ null ]" else "[ " ++ fpElems xs ++ " ]")
       | JsValue.vObj gs => toString i ++ ": " ++ ("\x7b " ++ fpFields gs ++ " \x7d")
       | JsValue.vNull => toString i ++ ": null"
       | JsValue.vUndefined => toString i ++ ": undefined"
       | _ => toString i)
      ++ (match tl with | JsList.nil => "" | JsList.cons _ _ => ", ")
      ++ fpIndexed (i + 1) tl

end

/-- `fingerprint` from `src/fingerprint.js`.  `_.keys` of a non-object is
`[]`, so every non-object (scalar, `null`, `undefined`) fingerprints to
`"\x7b  \x7d"`; an object renders its fields; an array renders its index
keys (see `fpIndexed`). -/
def fingerprint : JsValue → String
  | JsValue.vObj fs => "\x7b " ++ fpFields fs ++ " \x7d"
  | JsValue.vArr xs => "\x7b " ++ fpIndexed 0 xs ++ " \x7d"
  | _ => "\x7b " ++ "" ++ " \x7d"

/-- `arrayFingerprint` from `src/fingerprint.js`: if the array contains a
falsy element (`_.size(ra) !== _.size(_.compact(ra))`) the result is the
literal `"[ null ]"`; otherwise the elements are rendered by the loop
modelled in `fpElems`. -/
def arrayFingerprint (ra : JsList) : String :=
  if anyFalsyL ra then "[ null ]" else "[ " ++ fpElems ra ++ " ]"

/-- The inlined array branch of `fpFields` agrees with `arrayFingerprint`. -/
theorem fpFields_cons_arr (k : String) (xs : JsList) (tl : JsFields) :
    fpFields (JsFields.cons k (JsValue.vArr xs) tl)
      = k ++ ": " ++ arrayFingerprint xs
        ++ (match tl with | JsFields.nil => "" | JsFields.cons _ _ _ => ", ")
        ++ fpFields tl := by
  cases tl <;> simp [fpFields, arrayFingerprint]

/-- The inlined object branch of `fpFields` agrees with `fingerprint`. -/
theorem fpFields_cons_obj (k : String) (gs : JsFields) (tl : JsFields) :
    fpFields (JsFields.cons k (JsValue.vObj gs) tl)
      = k ++ ": " ++ fingerprint (JsValue.vObj gs)
        ++ (match tl with | JsFields.nil => "" | JsFields.cons _ _ _ => ", ")
        ++ fpFields tl := by
  cases tl <;> simp [fpFields, fingerprint]

/-- An element of `fpElems` that is an object or array contributes its
`fingerprint`. -/
theorem fpElems_cons (v : JsValue) (tl : JsList) :
    fpElems (JsList.cons v tl)
      = (match v with
         | JsValue.vObj _ => fingerprint v
         | JsValue.vArr _ => fingerprint v
         | _ => "")
        ++ (match tl with | JsList.nil => "" | JsList.cons _ _ => ", ")
        ++ fpElems tl := by
  cases v <;> cases tl <;> rfl

-- Reference behaviors from the repository's own test suite
-- (`spec/fingerprintSpec.js`) and from §8 of the specification.

example : fingerprint (JsValue.vObj (jobj [("_id", JsValue.vNum 1)])) = "\x7b _id \x7d" := rfl

example :
    fingerprint (JsValue.vObj (jobj
      [("_id", JsValue.vStr "yolo"),
       ("$or", JsValue.vArr (jarr
         [JsValue.vObj (jobj
           [("createdAt", JsValue.vObj (jobj [("$gt", JsValue.vNum 1234567)]))])]))]))
    = "\x7b _id, $or: [ \x7b createdAt: \x7b $gt \x7d \x7d ] \x7d" := rfl

example :
    fingerprint (JsValue.vObj (jobj
      [("_id", JsValue.vStr "yolo"),
       ("$or", JsValue.vArr (jarr
         [JsValue.vObj (jobj
           [("createdAt", JsValue.vObj (jobj
             [("otherIds", JsValue.vArr (jarr [JsValue.vStr "34tfger"]))]))])]))]))
    = "\x7b _id, $or: [ \x7b createdAt: \x7b otherIds: [  ] \x7d \x7d ] \x7d" := rfl

example :
    fingerprint (JsValue.vObj (jobj
      [("_id", JsValue.vStr "x"), ("groupIds", JsValue.vArr (jarr [JsValue.vNull]))]))
    = "\x7b _id, groupIds: [ null ] \x7d" := rfl

example :
    fingerprint (JsValue.vObj (jobj
      [("_id", JsValue.vStr "x"), ("groupIds", JsValue.vNull)]))
    = "\x7b _id, groupIds: null \x7d" := rfl

example :
    fingerprint (JsValue.vObj (jobj
      [("_id", JsValue.vStr "x"), ("groupIds", JsValue.vUndefined)]))
    = "\x7b _id, groupIds: undefined \x7d" := rfl

example : fingerprint (JsValue.vObj JsFields.nil) = "\x7b  \x7d" := rfl

/-! ## The MongoSlowQueryChecker (`src/index.js`) -/

/-- `INDEXED_PLANS` from `src/index.js`. -/
def INDEXED_PLANS : List String := ["IXSCAN", "IDHACK"]

/-- Whether `needle` occurs at the start of `hay`. -/
def startsWith : List Char → List Char → Bool
  | [], _ => true
  | _ :: _, [] => false
  | c :: cs, d :: ds => (c == d) && startsWith cs ds

/-- Whether `needle` occurs as a contiguous substring of `hay`
(the semantics of JavaScript `hay.indexOf(needle) !== -1`). -/
def hasSubstr (needle : List Char) : List Char → Bool
  | [] => startsWith needle []
  | c :: tl => startsWith needle (c :: tl) || hasSubstr needle tl

/-- `isIndexed` from `src/index.js`:
`INDEXED_PLANS.some((p) => op.planSummary.indexOf(p) !== -1)` —
`indexOf(p) !== -1` holds exactly when `p` occurs as a contiguous
substring. -/
def isIndexedB (planSummary : String) : Bool :=
  INDEXED_PLANS.any (fun p => hasSubstr p.data planSummary.data)

/-- The suffix of `l` strictly after the last occurrence of `c`
(`l` itself when `c` does not occur). -/
def afterLastChar (c : Char) (l : List Char) : List Char :=
  (l.reverse.takeWhile (fun x => !(x == c))).reverse

/-- `ns.replace(/.*\./, '')` from `processOps`, on character lists.
JavaScript replaces the leftmost-longest match of `/.*\./`, where `.`
matches any character except a newline.  When the string contains a
`'.'`, the match starts right after the last newline preceding the first
`'.'` and ends at the last `'.'` on that line; when it contains no `'.'`
there is no match and the string is returned unchanged. -/
def jsReplaceDotStarData (l : List Char) : List Char :=
  if l.any (fun c => c == '.') then
    let pre := l.takeWhile (fun c => !(c == '.'))
    let rest := l.dropWhile (fun c => !(c == '.'))
    let keep := (pre.reverse.dropWhile (fun c => !(c == '\n'))).reverse
    let line := rest.takeWhile (fun c => !(c == '\n'))
    keep ++ afterLastChar '.' line ++ rest.dropWhile (fun c => !(c == '\n'))
  else l

/-- `ns.replace(/.*\./, '')` on strings. -/
def jsReplaceDotStar (s : String) : String := String.mk (jsReplaceDotStarData s.data)

example : jsReplaceDotStar "mixmax.users" = "users" := rfl
example : jsReplaceDotStar "a.b.c" = "c" := rfl
example : jsReplaceDotStar "nodots" = "nodots" := rfl

/-- A raw operation record as consumed by `processOps`.  A JavaScript
property whose value may be any document is modelled as a `JsValue`, with
`vUndefined` standing for an absent property (JavaScript property access
on a missing field yields `undefined`); `ns` and `planSummary`, which the
code only ever treats as strings or absent, are modelled as
`Option String`. -/
structure CurrentOp where
  query : JsValue
  command : JsValue
  ns : Option String
  planSummary : Option String
  waitingForLock : Bool
  appName : Option String

/-- One element of the array produced by `processOps`. -/
structure ProcessedOp where
  query : CurrentOp
  fingerprint : String
  collection : String
  indexed : JsValue
  waitingForLock : Bool
  appName : Option String

/-- The per-operation body of `_.map` in `processOps` (`src/index.js`):

* `fingerprint: fingerprint(op.query)`;
* `collection: op.ns ? op.ns.replace(/.*\./, '') : '(no collection)'`
  (the ternary tests JavaScript truthiness, so an empty `ns` string also
  selects the `'(no collection)'` branch);
* `indexed: op.planSummary && this.isIndexed(op)` (JavaScript `&&`
  returns its left operand when that operand is falsy, so a missing
  `planSummary` makes `indexed` the value `undefined`, and an empty
  `planSummary` string makes it `''`). -/
def processOp (op : CurrentOp) : ProcessedOp :=
  { query := op
  , fingerprint := fingerprint op.query
  , collection :=
      match op.ns with
      | some ns => if ns == "" then "(no collection)" else jsReplaceDotStar ns
      | none => "(no collection)"
  , indexed :=
      match op.planSummary with
      | some ps => if ps == "" then JsValue.vStr "" else JsValue.vBool (isIndexedB ps)
      | none => JsValue.vUndefined
  , waitingForLock := op.waitingForLock
  , appName := op.appName }

/-- The result object of the `currentOp` database command. -/
structure OpsResult where
  inprog : Option (List CurrentOp)

/-- `processOps` from `src/index.js`: `const inprog = ops && ops.inprog;
if (!inprog || !inprog.length) return [];` and otherwise `_.map` over
`inprog`.  The function is total: an absent or empty result set yields
`[]` rather than an error. -/
def processOps : Option OpsResult → List ProcessedOp
  | none => []
  | some r =>
      match r.inprog with
      | none => []
      | some [] => []
      | some ops => ops.map processOp

/-- The options object accepted by the `MongoSlowQueryChecker`
constructor. -/
structure CheckerOptions where
  db : JsValue
  queryThreshold : JsValue

/-- The checker's instance state. -/
structure MongoSlowQueryChecker where
  db : JsValue
  queryThreshold : JsValue

/-- The constructor from `src/index.js`: `this.queryThreshold = 5;
if (options.queryThreshold) { this.queryThreshold = options.queryThreshold; }` —
the override is guarded by JavaScript truthiness. -/
def mkChecker (options : CheckerOptions) : MongoSlowQueryChecker :=
  { db := options.db
  , queryThreshold :=
      if truthy options.queryThreshold then options.queryThreshold else JsValue.vNum 5 }

/-- The `secs_running: { $gte: this.queryThreshold }` bound of the
`currentOp` command assembled by `get()`. -/
def getCommandSecsRunningBound (c : MongoSlowQueryChecker) : JsValue := c.queryThreshold

/-! ## Definitions following the specification's words

These definitions do not embed code from `src/`; each one either models a
component of the specification that is absent from `src/`, or states the
behavior a claim asserts so that it can be compared with the embedded
code. -/

/-- Modelled from the spec: the `isCollectionScan` classification
(true iff a plan-summary string is present and contains the full-scan
marker substring, `COLLSCAN`).  No code under `src/` computes this
field. -/
def specIsCollectionScan : Option String → Bool
  | none => false
  | some s => hasSubstr "COLLSCAN".data s.data

/-- Property lookup `v[k]` for defined-or-undefined probing. -/
def jsGetF : JsFields → String → JsValue
  | JsFields.nil, _ => JsValue.vUndefined
  | JsFields.cons k2 v tl, k => if k == k2 then v else jsGetF tl k

/-- Property lookup on a `JsValue`; non-objects have no properties. -/
def jsGet (v : JsValue) (k : String) : JsValue :=
  match v with
  | JsValue.vObj fs => jsGetF fs k
  | _ => JsValue.vUndefined

/-- First value in the list that is not `undefined`
(first-present-wins over an ordered sequence of optional lookups). -/
def jsFirstDefined : List JsValue → JsValue
  | [] => JsValue.vUndefined
  | v :: rest =>
      match v with
      | JsValue.vUndefined => jsFirstDefined rest
      | _ => v

/-- Modelled from the spec: the claimed `queryShape` extraction — attempt,
in order, the plain filter field, the update-command's query component,
the command's filter field, the command's query field, and the command's
pipeline field; the first present field wins.  The code under `src/`
contains no such fallback sequence (`processOps` reads only `op.query`),
so this definition follows the specification's words for comparison. -/
def specQueryShape (op : CurrentOp) : JsValue :=
  jsFirstDefined
    [op.query, jsGet op.command "q", jsGet op.command "filter",
     jsGet op.command "query", jsGet op.command "pipeline"]

/-- The collection name as the claim states it: the namespace with
everything up to and including the last `'.'` stripped, the whole string
when it contains no `'.'`. -/
def specCollectionName (ns : String) : String := String.mk (afterLastChar '.' ns.data)

example : specCollectionName "mixmax.users" = "users" := rfl
example : specCollectionName "nodots" = "nodots" := rfl

/-- Modelled from the spec: the `timestamp > watermark` bound of the
historical-log query — no bound when the watermark is unset. -/
def histKeep (w : Option Nat) (t : Nat) : Bool :=
  match w with
  | none => true
  | some m => decide (m < t)

/-- The maximum timestamp of a poll's result set (0 for an empty set). -/
def maxTimestamp (l : List Nat) : Nat := l.foldl Nat.max 0

/-- Modelled from the spec: the historical-log poll, absent from `src/`.
The candidate timestamps are filtered by `timestamp > watermark` when a
watermark is set; the poll returns the filtered result set together with
the new watermark — the maximum timestamp of a non-empty result set, the
old watermark when the result set is empty. -/
def histPoll (w : Option Nat) (candidates : List Nat) : List Nat × Option Nat :=
  let res := candidates.filter (histKeep w)
  (res, if res.isEmpty then w else some (maxTimestamp res))

/-- The watermark after a sequence of historical-log polls. -/
def runPolls (w : Option Nat) (polls : List (List Nat)) : Option Nat :=
  polls.foldl (fun wm cs => (histPoll wm cs).2) w

/-- Watermark order: a set watermark never falls and never becomes
unset. -/
def wmLE (w w2 : Option Nat) : Prop :=
  ∀ m, w = some m → ∃ m2, w2 = some m2 ∧ m ≤ m2

/-! ## Helper lemmas -/

theorem foldl_max_acc_le (l : List Nat) : ∀ a : Nat, a ≤ l.foldl Nat.max a := by
  induction l with
  | nil => intro a; exact Nat.le_refl a
  | cons x l ih =>
      intro a
      exact Nat.le_trans (Nat.le_max_left a x) (ih (Nat.max a x))

theorem le_foldl_max (l : List Nat) : ∀ a t : Nat, t ∈ l → t ≤ l.foldl Nat.max a := by
  induction l with
  | nil => intro a t h; cases h
  | cons x l ih =>
      intro a t h
      cases h with
      | head => exact Nat.le_trans (Nat.le_max_right a x) (foldl_max_acc_le l (Nat.max a x))
      | tail _ hmem => exact ih (Nat.max a x) t hmem

theorem le_maxTimestamp (l : List Nat) (t : Nat) (h : t ∈ l) : t ≤ maxTimestamp l :=
  le_foldl_max l 0 t h

theorem wmLE_refl (w : Option Nat) : wmLE w w := by
  intro m hm; exact ⟨m, hm, Nat.le_refl m⟩

theorem wmLE_trans {a b c : Option Nat} (h1 : wmLE a b) (h2 : wmLE b c) : wmLE a c := by
  intro m hm
  obtain ⟨m2, hb, hle⟩ := h1 m hm
  obtain ⟨m3, hc, hle2⟩ := h2 m2 hb
  exact ⟨m3, hc, Nat.le_trans hle hle2⟩

theorem histPoll_wmLE (w : Option Nat) (cs : List Nat) : wmLE w (histPoll w cs).2 := by
  intro m hm
  subst hm
  cases hres : (cs.filter (histKeep (some m))).isEmpty with
  | true =>
      refine ⟨m, ?_, Nat.le_refl m⟩
      simp [histPoll, hres]
  | false =>
      have hne : cs.filter (histKeep (some m)) ≠ [] := by
        intro hnil; rw [hnil] at hres; cases hres
      obtain ⟨t, ht⟩ := List.exists_mem_of_ne_nil _ hne
      have htf := List.mem_filter.mp ht
      have hdec : decide (m < t) = true := htf.2
      have hmt : m < t := of_decide_eq_true hdec
      refine ⟨maxTimestamp (cs.filter (histKeep (some m))), ?_, ?_⟩
      · simp [histPoll, hres]
      · exact Nat.le_trans (Nat.le_of_lt hmt) (le_maxTimestamp _ t ht)

theorem runPolls_wmLE (polls : List (List Nat)) : ∀ w : Option Nat, wmLE w (runPolls w polls) := by
  induction polls with
  | nil => intro w; exact wmLE_refl w
  | cons cs css ih =>
      intro w
      exact wmLE_trans (histPoll_wmLE w cs) (ih (histPoll w cs).2)


theorem takeWhile_append_left {p : Char → Bool} :
    ∀ (a b : List Char), (∃ x ∈ a, p x = false) → (a ++ b).takeWhile p = a.takeWhile p := by
  intro a
  induction a with
  | nil =>
      intro b h
      obtain ⟨x, hx, _⟩ := h
      cases hx
  | cons c a ih =>
      intro b h
      cases hc : p c with
      | false => simp [List.takeWhile_cons, hc]
      | true =>
          simp only [List.cons_append, List.takeWhile_cons, hc]
          obtain ⟨x, hx, hpx⟩ := h
          cases hx with
          | head =>
              rw [hc] at hpx
              cases hpx
          | tail _ hmem =>
              rw [ih b ⟨x, hmem, hpx⟩]

theorem dropWhile_first_dot :
    ∀ l : List Char, l.any (fun c => c == '.') = true →
      ∃ rest, l.dropWhile (fun c => !(c == '.')) = '.' :: rest := by
  intro l
  induction l with
  | nil => intro h; cases h
  | cons c l ih =>
      intro h
      cases hc : (c == '.') with
      | true =>
          have hcd : c = '.' := eq_of_beq hc
          subst hcd
          exact ⟨l, by simp [List.dropWhile_cons]⟩
      | false =>
          have h2 : l.any (fun c => c == '.') = true := by
            simp only [List.any_cons, hc, Bool.false_or] at h
            exact h
          obtain ⟨rest, hr⟩ := ih h2
          exact ⟨rest, by simp [List.dropWhile_cons, hc, hr]⟩

/-- On newline-free input (the only namespaces the regex's `.` treats
uniformly), `ns.replace(/.*\./, '')` strips exactly through the last
`'.'` of the string, and is the identity when there is no `'.'`. -/
theorem jsReplaceDotStarData_no_newline (l : List Char)
    (hnl : ∀ c ∈ l, (c == '\n') = false) :
    jsReplaceDotStarData l = afterLastChar '.' l := by
  cases hdot : l.any (fun c => c == '.') with
  | false =>
      have hall : ∀ x ∈ l.reverse, (!(x == '.')) = true := by
        intro x hx
        have hxl : x ∈ l := List.mem_reverse.mp hx
        have := List.any_eq_true.not.mp (by rw [hdot]; exact Bool.false_ne_true)
        push_neg at this
        have hxd := this x hxl
        cases hxx : (x == '.') with
        | true => exact absurd hxx (by simpa using hxd)
        | false => simp
      have : afterLastChar '.' l = l := by
        unfold afterLastChar
        rw [List.takeWhile_eq_self_iff.mpr hall, List.reverse_reverse]
      rw [this]
      unfold jsReplaceDotStarData
      rw [hdot]
      simp
  | true =>
      unfold jsReplaceDotStarData
      rw [hdot]
      simp only [if_true]
      have hprenl : ∀ c ∈ l.takeWhile (fun c => !(c == '.')), (c == '\n') = false :=
        fun c hc => hnl c ((List.takeWhile_sublist _).subset hc)
      have hrestnl : ∀ c ∈ l.dropWhile (fun c => !(c == '.')), (c == '\n') = false :=
        fun c hc => hnl c ((List.dropWhile_sublist _).subset hc)
      have hkeep : (l.takeWhile (fun c => !(c == '.'))).reverse.dropWhile
          (fun c => !(c == '\n')) = [] := by
        rw [List.dropWhile_eq_nil_iff]
        intro x hx
        rw [hprenl x (List.mem_reverse.mp hx)]
        simp
      have hline : (l.dropWhile (fun c => !(c == '.'))).takeWhile (fun c => !(c == '\n'))
          = l.dropWhile (fun c => !(c == '.')) := by
        rw [List.takeWhile_eq_self_iff]
        intro x hx
        rw [hrestnl x hx]
        simp
      have htl : (l.dropWhile (fun c => !(c == '.'))).dropWhile (fun c => !(c == '\n'))
          = [] := by
        rw [List.dropWhile_eq_nil_iff]
        intro x hx
        rw [hrestnl x hx]
        simp
      rw [hkeep, hline, htl]
      simp only [List.reverse_nil, List.nil_append, List.append_nil]
      obtain ⟨rest, hr⟩ := dropWhile_first_dot l hdot
      have hsplit : l = l.takeWhile (fun c => !(c == '.')) ++ l.dropWhile (fun c => !(c == '.')) :=
        (List.takeWhile_append_dropWhile _ _).symm
      unfold afterLastChar
      conv_rhs => rw [hsplit]
      rw [List.reverse_append]
      rw [takeWhile_append_left _ _ ⟨'.', by rw [hr]; simp, by simp⟩]

/-! ## Claims C5–C10 -/

/-- A raw operation with every optional field absent. -/
def opBase : CurrentOp :=
  { query := JsValue.vUndefined
  , command := JsValue.vUndefined
  , ns := none
  , planSummary := none
  , waitingForLock := false
  , appName := none }

/-- A raw operation with no plan summary. -/
def opNoPlan : CurrentOp := { opBase with ns := some "mixmax.users" }

/-- Claim C5 as stated is false on the code: with `planSummary` absent the
produced record's `indexed` field is the JavaScript value `undefined`
(`op.planSummary && this.isIndexed(op)` returns its falsy left operand),
which is not the boolean `false`. -/
theorem c5_counterexample :
    opNoPlan.planSummary = none ∧
    (processOp opNoPlan).indexed = JsValue.vUndefined ∧
    (processOp opNoPlan).indexed ≠ JsValue.vBool false :=
  ⟨rfl, rfl, fun h => JsValue.noConfusion h⟩

/-- Claim C5, amended: for every raw operation record without a
plan-summary string, the produced record's `indexed` field is the
`undefined` marker — falsy, but not the boolean `false` — and the
spec-modelled `isCollectionScan` classification is `false`. -/
theorem c5_amended (op : CurrentOp) (h : op.planSummary = none) :
    (processOp op).indexed = JsValue.vUndefined ∧
    specIsCollectionScan op.planSummary = false := by
  constructor
  · simp [processOp, h]
  · rw [h]
    rfl

theorem c5_amended_witness :
    (processOp opNoPlan).indexed = JsValue.vUndefined ∧
    specIsCollectionScan opNoPlan.planSummary = false :=
  c5_amended opNoPlan rfl

/-- A raw operation whose shape is only in the command's `filter` field. -/
def opCommandFilter : CurrentOp :=
  { opBase with
      command := JsValue.vObj (jobj [("filter", JsValue.vObj (jobj [("a", JsValue.vNum 1)]))]) }

/-- Claim C6 as stated is false on the code: `processOps` fingerprints
only `op.query`.  On a record whose shape sits in the command's `filter`
field the code fingerprints `undefined` (yielding the empty-object
fingerprint) instead of the first present field of the claimed ordered
lookup sequence. -/
theorem c6_counterexample :
    (processOp opCommandFilter).fingerprint = "\x7b  \x7d" ∧
    fingerprint (specQueryShape opCommandFilter) = "\x7b a \x7d" ∧
    (processOp opCommandFilter).fingerprint ≠ fingerprint (specQueryShape opCommandFilter) :=
  ⟨rfl, rfl, by decide⟩

/-- Claim C6, amended: the fingerprint input is always the record's plain
`query` field (with fingerprint `"\x7b  \x7d"` when that field is absent);
no fallback lookup over the command's fields is performed, so the
fingerprint depends on nothing but the `query` field. -/
theorem c6_amended (op1 op2 : CurrentOp) (h : op1.query = op2.query) :
    (processOp op1).fingerprint = fingerprint op1.query ∧
    (processOp op1).fingerprint = (processOp op2).fingerprint :=
  ⟨rfl, by simp [processOp, h]⟩

theorem c6_amended_witness :
    (processOp opCommandFilter).fingerprint = fingerprint opCommandFilter.query ∧
    (processOp opCommandFilter).fingerprint = (processOp opBase).fingerprint :=
  c6_amended opCommandFilter opBase rfl

/-- A raw operation whose namespace is present but empty. -/
def opEmptyNs : CurrentOp := { opBase with ns := some "" }

/-- A raw operation with namespace `mixmax.users`. -/
def opNsUsers : CurrentOp := { opBase with ns := some "mixmax.users" }

/-- Claim C7 as stated is false on the code: the ternary
`op.ns ? … : '(no collection)'` tests truthiness, so the present-but-empty
namespace `""` gets the sentinel even though the claim demands the
namespace's final segment (which is `""`). -/
theorem c7_counterexample :
    opEmptyNs.ns = some "" ∧
    (processOp opEmptyNs).collection = "(no collection)" ∧
    (processOp opEmptyNs).collection ≠ specCollectionName "" :=
  ⟨rfl, rfl, by decide⟩

/-- Claim C7, amended: when the namespace is present, non-empty and
newline-free, the collection name is the namespace with everything up to
and including the last `'.'` stripped (the whole string when it has no
`'.'`); when the namespace is absent — or present but empty, which the
code's truthiness test conflates with absence — the collection name is
the sentinel.  (On a namespace containing a newline the JavaScript regex
`/.*\./` strips only within the first line containing a `'.'`, so the
restriction is necessary.) -/
theorem c7_amended (op : CurrentOp) :
    ((op.ns = none ∨ op.ns = some "") → (processOp op).collection = "(no collection)") ∧
    (∀ ns, op.ns = some ns → ns ≠ "" → (∀ c ∈ ns.data, (c == '\n') = false) →
      (processOp op).collection = specCollectionName ns) := by
  constructor
  · intro h
    cases h with
    | inl h => simp [processOp, h]
    | inr h => simp [processOp, h]
  · intro ns h hne hnl
    have hbeq : (ns == "") = false := beq_eq_false_iff_ne.mpr hne
    simp only [processOp, h, hbeq, if_false]
    show jsReplaceDotStar ns = specCollectionName ns
    unfold jsReplaceDotStar specCollectionName
    rw [jsReplaceDotStarData_no_newline ns.data hnl]

theorem c7_amended_witness :
    (processOp opNsUsers).collection = specCollectionName "mixmax.users" :=
  (c7_amended opNsUsers).2 "mixmax.users" rfl (by decide) (by decide)

/-- Claim C9: an empty or missing `inprog` result set yields the empty
sequence (`processOps` is a total function — no error is signalled). -/
theorem c9_empty_result (ops : Option OpsResult)
    (h : ops = none ∨ ∃ r, ops = some r ∧ (r.inprog = none ∨ r.inprog = some [])) :
    processOps ops = [] := by
  cases h with
  | inl h => rw [h]; rfl
  | inr h =>
      obtain ⟨r, hops, hr⟩ := h
      subst hops
      cases hr with
      | inl h2 => simp [processOps, h2]
      | inr h2 => simp [processOps, h2]

theorem c9_empty_result_witness :
    processOps (some ⟨some []⟩) = [] :=
  c9_empty_result (some ⟨some []⟩) (Or.inr ⟨⟨some []⟩, rfl, Or.inr rfl⟩)

/-- Claim C10: a falsy `queryThreshold` option — in particular an explicit
`0` — is ignored by the constructor's truthiness guard, so the
`secs_running` bound used by `get()`'s `currentOp` command is the default
of 5 seconds. -/
theorem c10_zero_threshold (options : CheckerOptions)
    (h : truthy options.queryThreshold = false) :
    getCommandSecsRunningBound (mkChecker options) = JsValue.vNum 5 := by
  simp [getCommandSecsRunningBound, mkChecker, h]

theorem c10_zero_threshold_witness :
    getCommandSecsRunningBound
      (mkChecker { db := JsValue.vStr "db", queryThreshold := JsValue.vNum 0 })
      = JsValue.vNum 5 :=
  c10_zero_threshold { db := JsValue.vStr "db", queryThreshold := JsValue.vNum 0 } rfl

/-- Claim C8 (spec-modelled; the historical-log path is absent from
`src/`): after a poll with a non-empty result set the watermark equals
the maximum timestamp observed in that result set; after an empty-result
poll it is unchanged; and across every sequence of polls the watermark
never decreases. -/
theorem c8_watermark (w : Option Nat) (cs : List Nat) (polls : List (List Nat)) :
    ((histPoll w cs).1 ≠ [] → (histPoll w cs).2 = some (maxTimestamp (histPoll w cs).1)) ∧
    ((histPoll w cs).1 = [] → (histPoll w cs).2 = w) ∧
    wmLE w (histPoll w cs).2 ∧
    wmLE w (runPolls w polls) := by
  refine ⟨?_, ?_, histPoll_wmLE w cs, runPolls_wmLE polls w⟩
  · intro h
    have hres : (cs.filter (histKeep w)).isEmpty = false := by
      cases hr : (cs.filter (histKeep w)).isEmpty with
      | false => rfl
      | true => exact absurd (List.isEmpty_iff.mp hr) h
    simp [histPoll, hres]
  · intro h
    have hres : (cs.filter (histKeep w)).isEmpty = true := by
      have : (cs.filter (histKeep w)) = [] := h
      rw [this]
      rfl
    simp [histPoll, hres]

theorem c8_watermark_witness :
    ((histPoll (some 3) [5, 2]).2 = some (maxTimestamp (histPoll (some 3) [5, 2]).1)) ∧
    ((histPoll (some 3) ([] : List Nat)).2 = some 3) :=
  ⟨(c8_watermark (some 3) [5, 2] []).1 (by decide),
   (c8_watermark (some 3) [] []).2.1 (by decide)⟩

/-! ## Claim C1: structural equality and fingerprint congruence -/

mutual

/-- The claim's notion of structural equality: same keys (in enumeration
order), same nesting, and the same array-vs-scalar-vs-null/undefined
structure; the literal values of plain scalars are disregarded
entirely. -/
def sameShape : JsValue → JsValue → Bool
  | JsValue.vNull, JsValue.vNull => true
  | JsValue.vUndefined, JsValue.vUndefined => true
  | JsValue.vArr xs, JsValue.vArr ys => sameShapeL xs ys
  | JsValue.vObj fs, JsValue.vObj gs => sameShapeF fs gs
  | a, b => isScalar a && isScalar b

/-- Pointwise structural equality of arrays. -/
def sameShapeL : JsList → JsList → Bool
  | JsList.nil, JsList.nil => true
  | JsList.cons x xs, JsList.cons y ys => sameShape x y && sameShapeL xs ys
  | _, _ => false

/-- Pointwise structural equality of field lists (equal keys in order). -/
def sameShapeF : JsFields → JsFields → Bool
  | JsFields.nil, JsFields.nil => true
  | JsFields.cons k v fs, JsFields.cons k2 v2 gs =>
      (k == k2) && sameShape v v2 && sameShapeF fs gs
  | _, _ => false

end

mutual

/-- Structural equality strengthened with truthiness agreement of array
elements: the `_.compact` test in `arrayFingerprint` distinguishes falsy
from truthy array elements, so only this finer relation is respected by
`fingerprint`. -/
def sameShapeT : JsValue → JsValue → Bool
  | JsValue.vNull, JsValue.vNull => true
  | JsValue.vUndefined, JsValue.vUndefined => true
  | JsValue.vArr xs, JsValue.vArr ys => sameShapeTL xs ys
  | JsValue.vObj fs, JsValue.vObj gs => sameShapeTF fs gs
  | a, b => isScalar a && isScalar b

/-- Pointwise truthiness-aware structural equality of arrays. -/
def sameShapeTL : JsList → JsList → Bool
  | JsList.nil, JsList.nil => true
  | JsList.cons x xs, JsList.cons y ys =>
      sameShapeT x y && (truthy x == truthy y) && sameShapeTL xs ys
  | _, _ => false

/-- Pointwise truthiness-aware structural equality of field lists. -/
def sameShapeTF : JsFields → JsFields → Bool
  | JsFields.nil, JsFields.nil => true
  | JsFields.cons k v fs, JsFields.cons k2 v2 gs =>
      (k == k2) && sameShapeT v v2 && sameShapeTF fs gs
  | _, _ => false

end


theorem sameShapeTL_anyFalsy : ∀ xs ys : JsList, sameShapeTL xs ys = true →
    anyFalsyL xs = anyFalsyL ys
  | JsList.nil, JsList.nil, _ => rfl
  | JsList.nil, JsList.cons _ _, h => Bool.noConfusion h
  | JsList.cons _ _, JsList.nil, h => Bool.noConfusion h
  | JsList.cons x xs, JsList.cons y ys, h => by
      simp only [sameShapeTL, Bool.and_eq_true, beq_iff_eq] at h
      obtain ⟨⟨hxy, htr⟩, htl⟩ := h
      have hfal : jsFalsy x = jsFalsy y := by
        have h1 : (!(jsFalsy x)) = (!(jsFalsy y)) := htr
        cases hx : jsFalsy x <;> cases hy : jsFalsy y <;> simp_all
      simp only [anyFalsyL, hfal, sameShapeTL_anyFalsy xs ys htl]

/-- The rendering of one object entry inside `fingerprint`'s key loop. -/
def entryFp (k : String) (v : JsValue) : String :=
  match v with
  | JsValue.vArr xs => k ++ ": " ++ arrayFingerprint xs
  | JsValue.vObj _ => k ++ ": " ++ fingerprint v
  | JsValue.vNull => k ++ ": null"
  | JsValue.vUndefined => k ++ ": undefined"
  | _ => k

/-- The rendering of one array element inside `arrayFingerprint`'s loop. -/
def elemFp (v : JsValue) : String :=
  match v with
  | JsValue.vObj _ => fingerprint v
  | JsValue.vArr _ => fingerprint v
  | _ => ""

/-- The separator contributed after an entry when further fields remain. -/
def sepF : JsFields → String
  | JsFields.nil => ""
  | JsFields.cons _ _ _ => ", "

/-- The separator contributed after an element when further elements remain. -/
def sepL : JsList → String
  | JsList.nil => ""
  | JsList.cons _ _ => ", "

theorem fpFields_cons (k : String) (v : JsValue) (tl : JsFields) :
    fpFields (JsFields.cons k v tl) = entryFp k v ++ sepF tl ++ fpFields tl := by
  cases v <;> cases tl <;> rfl

theorem fpElems_cons_eq (v : JsValue) (tl : JsList) :
    fpElems (JsList.cons v tl) = elemFp v ++ sepL tl ++ fpElems tl := by
  cases v <;> cases tl <;> rfl

theorem fpIndexed_cons (i : Nat) (v : JsValue) (tl : JsList) :
    fpIndexed i (JsList.cons v tl) = entryFp (toString i) v ++ sepL tl ++ fpIndexed (i + 1) tl := by
  cases v <;> cases tl <;> rfl

theorem ssT_sepF (fs gs : JsFields) (h : sameShapeTF fs gs = true) : sepF fs = sepF gs := by
  cases fs <;> cases gs <;> first | rfl | exact Bool.noConfusion h

theorem ssT_sepL (xs ys : JsList) (h : sameShapeTL xs ys = true) : sepL xs = sepL ys := by
  cases xs <;> cases ys <;> first | rfl | exact Bool.noConfusion h

mutual

theorem ssT_fields : ∀ (fs gs : JsFields), sameShapeTF fs gs = true →
    fpFields fs = fpFields gs
  | JsFields.nil, JsFields.nil, _ => rfl
  | JsFields.nil, JsFields.cons _ _ _, h => Bool.noConfusion h
  | JsFields.cons _ _ _, JsFields.nil, h => Bool.noConfusion h
  | JsFields.cons k v tl, JsFields.cons k2 v2 tl2, h => by
      simp only [sameShapeTF, Bool.and_eq_true, beq_iff_eq] at h
      obtain ⟨⟨hk, hv⟩, htl⟩ := h
      subst hk
      rw [fpFields_cons, fpFields_cons, ssT_fields tl tl2 htl,
        ssT_entryFp k v v2 hv, ssT_sepF tl tl2 htl]

theorem ssT_entryFp : ∀ (k : String) (v v2 : JsValue), sameShapeT v v2 = true →
    entryFp k v = entryFp k v2
  | _, JsValue.vNull, b, h => by
      cases b <;> first | rfl | exact Bool.noConfusion h
  | _, JsValue.vUndefined, b, h => by
      cases b <;> first | rfl | exact Bool.noConfusion h
  | _, JsValue.vBool _, b, h => by
      cases b <;> first | rfl | exact Bool.noConfusion h
  | _, JsValue.vNum _, b, h => by
      cases b <;> first | rfl | exact Bool.noConfusion h
  | _, JsValue.vStr _, b, h => by
      cases b <;> first | rfl | exact Bool.noConfusion h
  | k, JsValue.vArr xs, b, h => by
      cases b <;> try exact Bool.noConfusion h
      case vArr ys =>
        have hl : sameShapeTL xs ys = true := h
        show k ++ ": " ++ arrayFingerprint xs = k ++ ": " ++ arrayFingerprint ys
        simp only [arrayFingerprint]
        rw [sameShapeTL_anyFalsy xs ys hl, ssT_elems xs ys hl]
  | k, JsValue.vObj fs, b, h => by
      cases b <;> try exact Bool.noConfusion h
      case vObj gs =>
        have hf : sameShapeTF fs gs = true := h
        show k ++ ": " ++ fingerprint (JsValue.vObj fs)
          = k ++ ": " ++ fingerprint (JsValue.vObj gs)
        show k ++ ": " ++ ("\x7b " ++ fpFields fs ++ " \x7d")
          = k ++ ": " ++ ("\x7b " ++ fpFields gs ++ " \x7d")
        rw [ssT_fields fs gs hf]

theorem ssT_elems : ∀ (xs ys : JsList), sameShapeTL xs ys = true →
    fpElems xs = fpElems ys
  | JsList.nil, JsList.nil, _ => rfl
  | JsList.nil, JsList.cons _ _, h => Bool.noConfusion h
  | JsList.cons _ _, JsList.nil, h => Bool.noConfusion h
  | JsList.cons x xs, JsList.cons y ys, h => by
      simp only [sameShapeTL, Bool.and_eq_true] at h
      obtain ⟨⟨hxy, _⟩, htl⟩ := h
      rw [fpElems_cons_eq, fpElems_cons_eq, ssT_elems xs ys htl,
        ssT_elemFp x y hxy, ssT_sepL xs ys htl]

theorem ssT_elemFp : ∀ (v v2 : JsValue), sameShapeT v v2 = true →
    elemFp v = elemFp v2
  | JsValue.vNull, b, h => by
      cases b <;> first | rfl | exact Bool.noConfusion h
  | JsValue.vUndefined, b, h => by
      cases b <;> first | rfl | exact Bool.noConfusion h
  | JsValue.vBool _, b, h => by
      cases b <;> first | rfl | exact Bool.noConfusion h
  | JsValue.vNum _, b, h => by
      cases b <;> first | rfl | exact Bool.noConfusion h
  | JsValue.vStr _, b, h => by
      cases b <;> first | rfl | exact Bool.noConfusion h
  | JsValue.vArr xs, b, h => by
      cases b <;> try exact Bool.noConfusion h
      case vArr ys =>
        have hl : sameShapeTL xs ys = true := h
        show fingerprint (JsValue.vArr xs) = fingerprint (JsValue.vArr ys)
        show "\x7b " ++ fpIndexed 0 xs ++ " \x7d" = "\x7b " ++ fpIndexed 0 ys ++ " \x7d"
        rw [ssT_indexed 0 xs ys hl]
  | JsValue.vObj fs, b, h => by
      cases b <;> try exact Bool.noConfusion h
      case vObj gs =>
        have hf : sameShapeTF fs gs = true := h
        show fingerprint (JsValue.vObj fs) = fingerprint (JsValue.vObj gs)
        show "\x7b " ++ fpFields fs ++ " \x7d" = "\x7b " ++ fpFields gs ++ " \x7d"
        rw [ssT_fields fs gs hf]

theorem ssT_indexed : ∀ (i : Nat) (xs ys : JsList), sameShapeTL xs ys = true →
    fpIndexed i xs = fpIndexed i ys
  | _, JsList.nil, JsList.nil, _ => rfl
  | _, JsList.nil, JsList.cons _ _, h => Bool.noConfusion h
  | _, JsList.cons _ _, JsList.nil, h => Bool.noConfusion h
  | i, JsList.cons x xs, JsList.cons y ys, h => by
      simp only [sameShapeTL, Bool.and_eq_true] at h
      obtain ⟨⟨hxy, _⟩, htl⟩ := h
      rw [fpIndexed_cons, fpIndexed_cons, ssT_indexed (i + 1) xs ys htl,
        ssT_entryFp (toString i) x y hxy, ssT_sepL xs ys htl]

end

/-- `\x7b a: [ 1 ] \x7d` as a document. -/
def docArrOne : JsValue := JsValue.vObj (jobj [("a", JsValue.vArr (jarr [JsValue.vNum 1]))])

/-- `\x7b a: [ 0 ] \x7d` as a document. -/
def docArrZero : JsValue := JsValue.vObj (jobj [("a", JsValue.vArr (jarr [JsValue.vNum 0]))])

/-- `\x7b a: [ 2 ] \x7d` as a document. -/
def docArrTwo : JsValue := JsValue.vObj (jobj [("a", JsValue.vArr (jarr [JsValue.vNum 2]))])

/-- Claim C1 as stated is false on the code: the two documents
`\x7b a: [1] \x7d` and `\x7b a: [0] \x7d` are structurally equal (same
keys, same nesting, both an array of one plain scalar) and differ only in
a literal scalar value, yet `_.compact` treats the falsy element `0` as
empty, so one fingerprints to `[  ]` and the other to `[ null ]`. -/
theorem c1_counterexample :
    sameShape docArrOne docArrZero = true ∧
    fingerprint docArrOne = "\x7b a: [  ] \x7d" ∧
    fingerprint docArrZero = "\x7b a: [ null ] \x7d" ∧
    fingerprint docArrOne ≠ fingerprint docArrZero :=
  ⟨rfl, rfl, rfl, by decide⟩

/-- Claim C1, amended: `fingerprint` is invariant under change of literal
scalar values provided corresponding array elements keep the same
JavaScript truthiness (the `_.compact` test in `arrayFingerprint` can
distinguish falsy scalars — `0`, `''`, `false`, `null`, `undefined` —
from truthy ones when they occur as array elements).  In particular two
documents differing only in an object key's literal scalar value have
identical fingerprints. -/
theorem c1_amended (a b : JsValue) (h : sameShapeT a b = true) :
    fingerprint a = fingerprint b := by
  cases a <;> cases b
  case vObj.vObj fs gs =>
    have hf : sameShapeTF fs gs = true := h
    show "\x7b " ++ fpFields fs ++ " \x7d" = "\x7b " ++ fpFields gs ++ " \x7d"
    rw [ssT_fields fs gs hf]
  case vArr.vArr xs ys =>
    have hl : sameShapeTL xs ys = true := h
    show "\x7b " ++ fpIndexed 0 xs ++ " \x7d" = "\x7b " ++ fpIndexed 0 ys ++ " \x7d"
    rw [ssT_indexed 0 xs ys hl]
  all_goals first | rfl | exact Bool.noConfusion h

theorem c1_amended_witness :
    sameShapeT docArrOne docArrTwo = true ∧ fingerprint docArrOne = fingerprint docArrTwo :=
  ⟨rfl, c1_amended docArrOne docArrTwo rfl⟩

/-! ## Claim C2: the all-falsy collapse of arrayFingerprint -/

theorem elemFp_data (v : JsValue) :
    (elemFp v).data = [] ∨ ∃ t, (elemFp v).data = '\x7b' :: t := by
  cases v with
  | vObj fs => exact Or.inr ⟨' ' :: ((fpFields fs).data ++ [' ', '\x7d']), rfl⟩
  | vArr xs => exact Or.inr ⟨' ' :: ((fpIndexed 0 xs).data ++ [' ', '\x7d']), rfl⟩
  | vNull => exact Or.inl rfl
  | vUndefined => exact Or.inl rfl
  | vBool b => exact Or.inl rfl
  | vNum n => exact Or.inl rfl
  | vStr s => exact Or.inl rfl

theorem fpElems_data_ne_null : ∀ xs : JsList, (fpElems xs).data ≠ ['n', 'u', 'l', 'l'] := by
  intro xs
  cases xs with
  | nil => decide
  | cons v tl =>
      intro h
      rw [fpElems_cons_eq] at h
      have hd : ((elemFp v).data ++ (sepL tl).data) ++ (fpElems tl).data
          = ['n', 'u', 'l', 'l'] := by
        rw [← String.data_append, ← String.data_append]
        exact h
      cases elemFp_data v with
      | inl he =>
          rw [he, List.nil_append] at hd
          cases tl with
          | nil =>
              rw [show (sepL JsList.nil).data = [] from rfl,
                show (fpElems JsList.nil).data = [] from rfl] at hd
              exact absurd hd (by decide)
          | cons u tl2 =>
              rw [show (sepL (JsList.cons u tl2)).data = [',', ' '] from rfl] at hd
              rw [List.cons_append, List.cons_append] at hd
              injection hd with h1 _
              exact absurd h1 (by decide)
      | inr he =>
          obtain ⟨t, he⟩ := he
          rw [he, List.cons_append, List.cons_append] at hd
          injection hd with h1 _
          exact absurd h1 (by decide)

/-- Claim C2 as stated is false on the code: `[1, null]` contains the
non-null element `1`, yet `_.size(ra) !== _.size(_.compact(ra))` holds
(the null is dropped by `_.compact`), so its fingerprint is the literal
`"[ null ]"` rather than the normal bracketed-sequence form. -/
theorem c2_counterexample :
    (∃ x ∈ (jarr [JsValue.vNum 1, JsValue.vNull]).toList, x ≠ JsValue.vNull) ∧
    (jarr [JsValue.vNum 1, JsValue.vNull]).toList ≠ [] ∧
    arrayFingerprint (jarr [JsValue.vNum 1, JsValue.vNull]) = "[ null ]" :=
  ⟨⟨JsValue.vNum 1, by simp [jarr, JsList.toList], fun h => JsValue.noConfusion h⟩,
   by simp [jarr, JsList.toList], rfl⟩

/-- Claim C2, amended: the array fingerprint is the literal `"[ null ]"`
iff the array contains at least one falsy element (`null`, `undefined`,
`false`, `0` or `''`) — `_.compact` removes every falsy value, not only
nulls, so an all-null array is sufficient but not necessary. -/
theorem c2_amended (ra : JsList) :
    arrayFingerprint ra = "[ null ]" ↔ anyFalsyL ra = true := by
  constructor
  · intro h
    cases hf : anyFalsyL ra with
    | true => rfl
    | false =>
        exfalso
        unfold arrayFingerprint at h
        rw [hf] at h
        simp only [Bool.false_eq_true, if_false] at h
        have hd := congrArg String.data h
        rw [String.data_append, String.data_append] at hd
        rw [show ("[ " : String).data = ['[', ' '] from rfl,
          show (" ]" : String).data = [' ', ']'] from rfl,
          show ("[ null ]" : String).data = ['[', ' ', 'n', 'u', 'l', 'l', ' ', ']'] from rfl]
          at hd
        simp only [List.cons_append, List.nil_append] at hd
        injection hd with h1 hd
        injection hd with h2 hd
        have hsplit : (fpElems ra).data ++ [' ', ']'] = ['n', 'u', 'l', 'l'] ++ [' ', ']'] := hd
        have := (List.append_inj' hsplit rfl).1
        exact fpElems_data_ne_null ra this
  · intro h
    unfold arrayFingerprint
    rw [h]
    rfl

/-! ## Claim C3: scalar array elements and separators -/

/-- The `n − 1` comma-space separators emitted between `n` (invisible)
scalar element tokens. -/
def seps : Nat → String
  | 0 => ""
  | 1 => ""
  | n + 2 => ", " ++ seps (n + 1)

theorem anyFalsy_false_of_truthy : ∀ xs : JsList,
    (∀ x ∈ xs.toList, truthy x = true) → anyFalsyL xs = false
  | JsList.nil, _ => rfl
  | JsList.cons v tl, h => by
      have hv : truthy v = true := h v (by simp [JsList.toList])
      have hfal : jsFalsy v = false := by
        cases hj : jsFalsy v with
        | false => rfl
        | true => rw [truthy, hj] at hv; exact absurd hv (by decide)
      have htl := anyFalsy_false_of_truthy tl (fun x hx => h x (by simp [JsList.toList, hx]))
      simp [anyFalsyL, hfal, htl]

theorem fpElems_scalars : ∀ xs : JsList,
    (∀ x ∈ xs.toList, isScalar x = true) → fpElems xs = seps xs.len
  | JsList.nil, _ => rfl
  | JsList.cons v tl, h => by
      have hv : isScalar v = true := h v (by simp [JsList.toList])
      have hel : elemFp v = "" := by
        cases v <;> first | rfl | exact absurd hv (by simp [isScalar])
      have htl := fpElems_scalars tl (fun x hx => h x (by simp [JsList.toList, hx]))
      rw [fpElems_cons_eq, hel, htl]
      cases tl with
      | nil => rfl
      | cons u tl2 => rfl

/-- Claim C3 as stated is false on the code: the separator
`if (_.size(ra) > i + 1) fprint += ', '` is emitted after every element,
visible token or not, so `[1, 2]` — all plain non-null scalars —
fingerprints to `"[ ,  ]"`, not `"[  ]"`. -/
theorem c3_counterexample :
    (∀ x ∈ (jarr [JsValue.vNum 1, JsValue.vNum 2]).toList,
      isScalar x = true ∧ x ≠ JsValue.vNull) ∧
    arrayFingerprint (jarr [JsValue.vNum 1, JsValue.vNum 2]) = "[ ,  ]" ∧
    arrayFingerprint (jarr [JsValue.vNum 1, JsValue.vNum 2]) ≠ "[  ]" :=
  ⟨by
    intro x hx
    simp [jarr, JsList.toList] at hx
    rcases hx with h | h <;> subst h <;> exact ⟨rfl, fun h => JsValue.noConfusion h⟩,
   rfl, by decide⟩

/-- Claim C3, amended: an array of `n` plain truthy scalars fingerprints
to `"[ "`, then `n − 1` comma-space separators (each scalar contributes
an empty token, but the separators between them remain), then `" ]"`; the
result is `"[  ]"` only for `n ≤ 1`.  (Falsy scalars — `0`, `''`,
`false` — instead trigger the `"[ null ]"` collapse.) -/
theorem c3_amended (xs : JsList)
    (h : ∀ x ∈ xs.toList, isScalar x = true ∧ truthy x = true) :
    arrayFingerprint xs = "[ " ++ seps xs.len ++ " ]" := by
  have hf := anyFalsy_false_of_truthy xs (fun x hx => (h x hx).2)
  unfold arrayFingerprint
  rw [hf]
  simp only [Bool.false_eq_true, if_false]
  rw [fpElems_scalars xs (fun x hx => (h x hx).1)]

theorem c3_amended_witness :
    arrayFingerprint (jarr [JsValue.vNum 1, JsValue.vNum 2])
      = "[ " ++ seps (jarr [JsValue.vNum 1, JsValue.vNum 2]).len ++ " ]" :=
  c3_amended _ (by
    intro x hx
    simp [jarr, JsList.toList] at hx
    rcases hx with h | h <;> subst h <;> exact ⟨rfl, rfl⟩)

/-! ## Claim C4: key presence and fingerprint collisions -/

mutual

/-- Whether the key string `k` occurs anywhere in the document's
structure (as an object key at any depth, including inside arrays). -/
def mentionsKey (k : String) : JsValue → Bool
  | JsValue.vObj fs => mentionsKeyF k fs
  | JsValue.vArr xs => mentionsKeyL k xs
  | _ => false

/-- `mentionsKey` over array elements. -/
def mentionsKeyL (k : String) : JsList → Bool
  | JsList.nil => false
  | JsList.cons v tl => mentionsKey k v || mentionsKeyL k tl

/-- `mentionsKey` over object fields. -/
def mentionsKeyF (k : String) : JsFields → Bool
  | JsFields.nil => false
  | JsFields.cons k2 v tl => (k == k2) || mentionsKey k v || mentionsKeyF k tl

end

/-- `\x7b a: [ null ] \x7d` as a document. -/
def docNullArr : JsValue :=
  JsValue.vObj (jobj [("a", JsValue.vArr (jarr [JsValue.vNull]))])

/-- `\x7b a: [ null, \x7b b: 1 \x7d ] \x7d` as a document. -/
def docNullArrB : JsValue :=
  JsValue.vObj (jobj
    [("a", JsValue.vArr (jarr
      [JsValue.vNull, JsValue.vObj (jobj [("b", JsValue.vNum 1)])]))])

/-- Claim C4 as stated is false on the code: the key `b` is present in
`\x7b a: [null, \x7b b: 1 \x7d] \x7d` and absent from
`\x7b a: [null] \x7d`, yet both arrays contain a falsy element, so both
collapse to `[ null ]` and the two documents share the fingerprint
`\x7b a: [ null ] \x7d`. -/
theorem c4_counterexample :
    mentionsKey "b" docNullArrB = true ∧
    mentionsKey "b" docNullArr = false ∧
    fingerprint docNullArr = fingerprint docNullArrB :=
  ⟨rfl, rfl, rfl⟩

/-- The comma-and-space join of the bare keys of a flat object, the shape
`fingerprint` produces between its braces for scalar-valued fields. -/
def joinChars : List (List Char) → List Char
  | [] => []
  | [k] => k
  | k :: rest => k ++ ',' :: ' ' :: joinChars rest

theorem before_comma_eq : ∀ (a b x y : List Char), ',' ∉ a → ',' ∉ b →
    a ++ ',' :: x = b ++ ',' :: y → a = b ∧ x = y := by
  intro a
  induction a with
  | nil =>
      intro b x y ha hb h
      cases b with
      | nil =>
          rw [List.nil_append, List.nil_append] at h
          injection h with _ h2
          exact ⟨rfl, h2⟩
      | cons c b2 =>
          rw [List.nil_append, List.cons_append] at h
          injection h with h1 _
          subst h1
          exact absurd (List.mem_cons_self _ _) hb
  | cons c a2 ih =>
      intro b x y ha hb h
      cases b with
      | nil =>
          rw [List.nil_append, List.cons_append] at h
          injection h with h1 _
          subst h1
          exact absurd (List.mem_cons_self _ _) ha
      | cons d b2 =>
          rw [List.cons_append, List.cons_append] at h
          injection h with h1 h2
          subst h1
          have ha2 : ',' ∉ a2 := fun hm => ha (List.mem_cons_of_mem _ hm)
          have hb2 : ',' ∉ b2 := fun hm => hb (List.mem_cons_of_mem _ hm)
          obtain ⟨he, hxy⟩ := ih b2 x y ha2 hb2 h2
          exact ⟨by rw [he], hxy⟩

theorem joinChars_inj : ∀ (l1 l2 : List (List Char)),
    (∀ k ∈ l1, k ≠ [] ∧ ',' ∉ k) → (∀ k ∈ l2, k ≠ [] ∧ ',' ∉ k) →
    joinChars l1 = joinChars l2 → l1 = l2 := by
  intro l1
  induction l1 with
  | nil =>
      intro l2 h1 h2 h
      cases l2 with
      | nil => rfl
      | cons k r =>
          exfalso
          cases r with
          | nil =>
              exact (h2 k (by simp)).1 (by
                rw [show joinChars [k] = k from rfl] at h
                exact h.symm)
          | cons k2 r2 =>
              rw [show joinChars (k :: k2 :: r2)
                  = k ++ ',' :: ' ' :: joinChars (k2 :: r2) from rfl] at h
              have := (List.append_eq_nil.mp h.symm).2
              exact List.noConfusion this
  | cons k r ih =>
      intro l2 h1 h2 h
      cases l2 with
      | nil =>
          exfalso
          cases r with
          | nil =>
              exact (h1 k (by simp)).1 (by
                rw [show joinChars [k] = k from rfl] at h
                exact h)
          | cons kb rb =>
              rw [show joinChars (k :: kb :: rb)
                  = k ++ ',' :: ' ' :: joinChars (kb :: rb) from rfl] at h
              have := (List.append_eq_nil.mp h).2
              exact List.noConfusion this
      | cons k2 r2 =>
          cases r with
          | nil =>
              cases r2 with
              | nil =>
                  rw [show joinChars [k] = k from rfl,
                    show joinChars [k2] = k2 from rfl] at h
                  rw [h]
              | cons k3 r3 =>
                  exfalso
                  rw [show joinChars [k] = k from rfl,
                    show joinChars (k2 :: k3 :: r3)
                      = k2 ++ ',' :: ' ' :: joinChars (k3 :: r3) from rfl] at h
                  have hc : ',' ∈ k2 ++ ',' :: ' ' :: joinChars (k3 :: r3) := by simp
                  rw [← h] at hc
                  exact (h1 k (by simp)).2 hc
          | cons kb rb =>
              cases r2 with
              | nil =>
                  exfalso
                  rw [show joinChars (k :: kb :: rb)
                      = k ++ ',' :: ' ' :: joinChars (kb :: rb) from rfl,
                    show joinChars [k2] = k2 from rfl] at h
                  have hc : ',' ∈ k ++ ',' :: ' ' :: joinChars (kb :: rb) := by simp
                  rw [h] at hc
                  exact (h2 k2 (by simp)).2 hc
              | cons k3 r3 =>
                  rw [show joinChars (k :: kb :: rb)
                      = k ++ ',' :: ' ' :: joinChars (kb :: rb) from rfl,
                    show joinChars (k2 :: k3 :: r3)
                      = k2 ++ ',' :: ' ' :: joinChars (k3 :: r3) from rfl] at h
                  obtain ⟨hk, htail⟩ := before_comma_eq k k2 _ _
                    (h1 k (by simp)).2 (h2 k2 (by simp)).2 h
                  injection htail with _ htail2
                  have hr := ih (k3 :: r3)
                    (fun x hx => h1 x (by simp [hx]))
                    (fun x hx => h2 x (by simp [hx])) htail2
                  rw [hk, hr]

/-- The keys of an object's field list, in enumeration order. -/
def fieldsKeys : JsFields → List String
  | JsFields.nil => []
  | JsFields.cons k _ tl => k :: fieldsKeys tl

/-- Whether every field value is a plain scalar. -/
def flatScalar : JsFields → Bool
  | JsFields.nil => true
  | JsFields.cons _ v tl => isScalar v && flatScalar tl

/-- Whether every key is non-empty and free of the comma character. -/
def goodKeysF : JsFields → Bool
  | JsFields.nil => true
  | JsFields.cons k _ tl =>
      (!(k == "")) && (!(k.data.any (fun c => c == ','))) && goodKeysF tl

theorem fpFields_flat_data : ∀ fs : JsFields, flatScalar fs = true →
    (fpFields fs).data = joinChars ((fieldsKeys fs).map String.data)
  | JsFields.nil, _ => rfl
  | JsFields.cons k v tl, h => by
      simp only [flatScalar, Bool.and_eq_true] at h
      obtain ⟨hv, htl⟩ := h
      have hel : entryFp k v = k := by
        cases v <;> first | rfl | exact absurd hv (by simp [isScalar])
      rw [fpFields_cons, hel]
      have hihtl := fpFields_flat_data tl htl
      cases tl with
      | nil =>
          show ((k ++ "") ++ "").data = joinChars [k.data]
          rw [show joinChars [k.data] = k.data from rfl]
          simp [String.data_append]
      | cons k2 v2 tl2 =>
          show ((k ++ ", ") ++ fpFields (JsFields.cons k2 v2 tl2)).data
            = joinChars (k.data :: k2.data :: (fieldsKeys tl2).map String.data)
          rw [show joinChars (k.data :: k2.data :: (fieldsKeys tl2).map String.data)
              = k.data ++ ',' :: ' ' :: joinChars (k2.data :: (fieldsKeys tl2).map String.data)
            from rfl]
          rw [String.data_append, String.data_append, hihtl]
          simp [fieldsKeys]

theorem goodKeys_spec : ∀ fs : JsFields, goodKeysF fs = true →
    ∀ x ∈ (fieldsKeys fs).map String.data, x ≠ [] ∧ ',' ∉ x
  | JsFields.nil, _ => by intro x hx; simp [fieldsKeys] at hx
  | JsFields.cons k v tl, h => by
      simp only [goodKeysF, Bool.and_eq_true] at h
      obtain ⟨⟨hk, hcomma⟩, htl⟩ := h
      intro x hx
      simp only [fieldsKeys, List.map_cons, List.mem_cons] at hx
      cases hx with
      | inl hx =>
          subst hx
          constructor
          · intro hnil
            have : k = "" := String.ext hnil
            rw [this] at hk
            exact absurd hk (by decide)
          · intro hmem
            have : k.data.any (fun c => c == ',') = true :=
              List.any_eq_true.mpr ⟨',', hmem, by decide⟩
            rw [this] at hcomma
            exact absurd hcomma (by decide)
      | inr hx => exact goodKeys_spec tl htl x hx

theorem fieldsKeys_of_map_data : ∀ (a b : List String),
    a.map String.data = b.map String.data → a = b := by
  intro a
  induction a with
  | nil =>
      intro b h
      cases b with
      | nil => rfl
      | cons x r => exact absurd h (by simp)
  | cons x r ih =>
      intro b h
      cases b with
      | nil => exact absurd h (by simp)
      | cons y s =>
          simp only [List.map_cons, List.cons.injEq] at h
          exact by rw [String.ext h.1, ih s h.2]

/-- Claim C4, amended: fingerprints are not injective in key presence in
general, but for flat documents — every field value a plain scalar — with
non-empty, comma-free keys, different key lists give different
fingerprints. -/
theorem c4_amended (fs gs : JsFields)
    (hf : flatScalar fs = true) (hg : flatScalar gs = true)
    (hkf : goodKeysF fs = true) (hkg : goodKeysF gs = true)
    (hne : fieldsKeys fs ≠ fieldsKeys gs) :
    fingerprint (JsValue.vObj fs) ≠ fingerprint (JsValue.vObj gs) := by
  intro h
  apply hne
  have hd : ("\x7b " ++ fpFields fs ++ " \x7d").data
      = ("\x7b " ++ fpFields gs ++ " \x7d").data := congrArg String.data h
  rw [String.data_append, String.data_append, String.data_append, String.data_append,
    show ("\x7b " : String).data = ['\x7b', ' '] from rfl,
    show (" \x7d" : String).data = [' ', '\x7d'] from rfl] at hd
  simp only [List.cons_append, List.nil_append] at hd
  injection hd with _ hd
  injection hd with _ hd
  have hsplit := (List.append_inj' hd rfl).1
  rw [fpFields_flat_data fs hf, fpFields_flat_data gs hg] at hsplit
  have := joinChars_inj _ _ (goodKeys_spec fs hkf) (goodKeys_spec gs hkg) hsplit
  exact fieldsKeys_of_map_data _ _ this

theorem c4_amended_witness :
    fingerprint (JsValue.vObj (jobj [("a", JsValue.vNum 1)]))
      ≠ fingerprint (JsValue.vObj (jobj [("a", JsValue.vNum 1), ("b", JsValue.vNum 2)])) :=
  c4_amended _ _ rfl rfl rfl rfl (by decide)
